import Mathlib

/-!
Verification of the `ModulesVisitor` component
(`src/main/python/smv/modulesvisitor.py`).

The Python code builds, from a list of root modules, a "leaf-first"
linearization of the dependency graph and offers forward (`dfs_visit`) and
reverse (`bfs_visit`) traversals over it.  We embed the algorithm shallowly:

* the FIFO `queue.Queue` becomes a `List` consumed at the head and extended
  at the tail;
* the `OrderedDict` `_sorted` becomes a `List` of its keys in insertion
  order; `update` on a fresh key appends, `pop` then `update` moves a key
  to the tail;
* the unbounded `while` loop becomes fuel-indexed recursion returning
  `Option` (`none` = the fuel ran out before the queue drained);
* the `resolvedRequiresDS` accessor becomes a function `deps : α → List α`,
  and, for the failure-propagation analysis, `α → Except ε (List α)`.
-/

namespace SMV

variable {α : Type} [DecidableEq α]

/-- `OrderedDict.update({m: True})` on the key list: a key already present
keeps its position (only its value is overwritten), a fresh key is appended
at the tail.  Used for the root-seeding loop of `_build_queue`. -/
def odUpdate (s : List α) (m : α) : List α :=
  if m ∈ s then s else s ++ [m]

/-- The per-dependency body of `_build_queue`'s inner loop on `_sorted`:
`if (m in _sorted): _sorted.pop(m)` followed by `_sorted.update({m: True})`
— i.e. remove the key if present, then append it at the tail. -/
def odMoveToEnd (s : List α) (m : α) : List α :=
  if m ∈ s then s.erase m ++ [m] else s ++ [m]

/-- The root-seeding loop: `for m in roots: _sorted.update({m: True})`. -/
def seedSorted (roots : List α) : List α :=
  roots.foldl odUpdate []

/-- The inner `for m in mod.resolvedRequiresDS` loop: each dependency is
enqueued at the tail of the working queue and moved to the end of
`_sorted`. -/
def processDeps (ds queue sorted : List α) : List α × List α :=
  ds.foldl (fun qs m => (qs.1 ++ [m], odMoveToEnd qs.2 m)) (queue, sorted)

/-- The `while(not _working_queue.empty())` loop of `_build_queue`, plus the
final `reversed(_sorted)`, indexed by fuel (number of dequeues allowed);
`none` means the fuel was exhausted before the queue drained. -/
def buildQueueAux (deps : α → List α) : Nat → List α → List α → Option (List α)
  | _, [], sorted => some sorted.reverse
  | 0, _ :: _, _ => none
  | fuel + 1, m :: rest, sorted =>
      let next := processDeps (deps m) rest sorted
      buildQueueAux deps fuel next.1 next.2

/-- `ModulesVisitor._build_queue(roots)`: seed the working queue and
`_sorted` with the roots, drain the queue, reverse the result. -/
def buildQueue (deps : α → List α) (fuel : Nat) (roots : List α) : Option (List α) :=
  buildQueueAux deps fuel roots (seedSorted roots)

/-- The visitor object: after `__init__`, it holds only `self.queue`. -/
structure ModulesVisitor (α : Type) where
  queue : List α

/-- `ModulesVisitor.__init__`: `self.queue = self._build_queue(roots)`. -/
def ModulesVisitor.make (deps : α → List α) (fuel : Nat) (roots : List α) :
    Option (ModulesVisitor α) :=
  (buildQueue deps fuel roots).map ModulesVisitor.mk

/-- `dfs_visit`: `for m in self.queue: action(m, state)`; the mutable state
is threaded explicitly. -/
def ModulesVisitor.dfs_visit {σ : Type} (v : ModulesVisitor α)
    (action : α → σ → σ) (state : σ) : σ :=
  v.queue.foldl (fun st m => action m st) state

/-- `bfs_visit`: `for m in reversed(self.queue): action(m, state)`. -/
def ModulesVisitor.bfs_visit {σ : Type} (v : ModulesVisitor α)
    (action : α → σ → σ) (state : σ) : σ :=
  v.queue.reverse.foldl (fun st m => action m st) state

/-- The sequence of nodes on which `dfs_visit` invokes its action, observed
by running `dfs_visit` itself with a recording action. -/
def ModulesVisitor.dfsTrace (v : ModulesVisitor α) : List α :=
  v.dfs_visit (fun m tr => tr ++ [m]) []

/-- The sequence of nodes on which `bfs_visit` invokes its action, observed
by running `bfs_visit` itself with a recording action. -/
def ModulesVisitor.bfsTrace (v : ModulesVisitor α) : List α :=
  v.bfs_visit (fun m tr => tr ++ [m]) []

/-- `listBefore l a b`: some occurrence of `a` appears strictly before some
occurrence of `b` in `l`. -/
def listBefore : List α → α → α → Bool
  | [], _, _ => false
  | x :: xs, a, b => (x = a && xs.contains b) || listBefore xs a b

/-- Reference linearization from the specification, section 4.1, step 3b
and step 4: dequeue `m`; for each direct dependency `d` in declared order,
unconditionally enqueue `d`, remove any prior entry of `d` from the ordered
set and insert `d` at its tail; once drained, reverse the sequence. -/
def specRefAux (deps : α → List α) : Nat → List α → List α → Option (List α)
  | _, [], s => some s.reverse
  | 0, _ :: _, _ => none
  | fuel + 1, m :: rest, s =>
      specRefAux deps fuel (rest ++ deps m)
        ((deps m).foldl (fun t d => t.erase d ++ [d]) s)

/-- Reference linearization from the specification, steps 1-2: seed a FIFO
queue and an insertion-ordered set with the roots in the given order, then
run the loop of `specRefAux`. -/
def specRefBuild (deps : α → List α) (fuel : Nat) (roots : List α) : Option (List α) :=
  specRefAux deps fuel roots
    (roots.foldl (fun t r => if r ∈ t then t else t ++ [r]) [])

/-- `_build_queue` with a fallible dependency accessor: reading
`mod.resolvedRequiresDS` may raise, in which case the exception propagates
out of the loop unmodified (`some (Except.error e)`); `none` still means
the fuel ran out. -/
def buildQueueAuxE {ε : Type} (depsE : α → Except ε (List α)) :
    Nat → List α → List α → Option (Except ε (List α))
  | _, [], sorted => some (Except.ok sorted.reverse)
  | 0, _ :: _, _ => none
  | fuel + 1, m :: rest, sorted =>
      match depsE m with
      | Except.error e => some (Except.error e)
      | Except.ok ds =>
          let next := processDeps ds rest sorted
          buildQueueAuxE depsE fuel next.1 next.2

/-- `_build_queue` with a fallible dependency accessor, from the seeded
state. -/
def buildQueueE {ε : Type} (depsE : α → Except ε (List α)) (fuel : Nat)
    (roots : List α) : Option (Except ε (List α)) :=
  buildQueueAuxE depsE fuel roots (seedSorted roots)

/-- Number of dependency paths (path suffixes) out of a node, cut off at a
given depth; used as the termination measure for acyclic graphs. -/
def pathCount (deps : α → List α) : Nat → α → Nat
  | 0, _ => 1
  | fuel + 1, n => 1 + ((deps n).map (pathCount deps fuel)).sum

/-- Concrete three-node universe for the specification's scenarios. -/
inductive Node3 : Type
  | A
  | B
  | C
deriving DecidableEq

/-- Scenario 2 graph: `A` depends on `[C]`, `B` depends on `[C]`, `C` on
nothing. -/
def depsScen2 : Node3 → List Node3
  | Node3.A => [Node3.C]
  | Node3.B => [Node3.C]
  | Node3.C => []

/-- Scenario 3 graph: `A` depends on `[B, C]`, `C` depends on `[B]`, `B` on
nothing. -/
def depsScen3 : Node3 → List Node3
  | Node3.A => [Node3.B, Node3.C]
  | Node3.B => []
  | Node3.C => [Node3.B]

/-- Two-node witness graph on `Fin 2`: node 1 depends on node 0. -/
def depsW : Fin 2 → List (Fin 2)
  | 0 => []
  | 1 => [0]

/-- Witness graph with duplicated dependencies and no edges out of 1. -/
def depsDup : Fin 2 → List (Fin 2)
  | 0 => [1, 1]
  | 1 => []

/-- Witness fallible accessor on `Fin 2`: node 1's accessor raises `7`,
node 0's returns no dependencies. -/
def depsWE : Fin 2 → Except Nat (List (Fin 2))
  | 0 => Except.ok []
  | 1 => Except.error 7

/-- `d` is a direct or transitive dependency of `n` in the graph `deps`. -/
def DependsTrans (deps : α → List α) (d n : α) : Prop :=
  Relation.TransGen (fun u v => u ∈ deps v) d n

/-- `x` is reachable from `r` by following dependency edges (including
`x = r`). -/
def Reaches (deps : α → List α) (r x : α) : Prop :=
  Relation.ReflTransGen (fun u v => v ∈ deps u) r x

/-- Loop invariant of `_build_queue`: the key list of `_sorted` is
duplicate-free, every queued node is already a key of `_sorted`, and every
key `n` whose direct dependency `d` is not yet guaranteed to sit strictly
after `n` in `_sorted` still has a pending dequeue of `n` in the queue. -/
def Ginv (deps : α → List α) (Q s : List α) : Prop :=
  s.Nodup ∧ (∀ x ∈ Q, x ∈ s) ∧
    ∀ n ∈ s, ∀ d ∈ deps n, n ∈ Q ∨ (d ∈ s ∧ listBefore s n d = true)

/-! ### Basic unfolding and membership lemmas -/

lemma processDeps_eq (ds : List α) : ∀ q s : List α,
    processDeps ds q s = (q ++ ds, ds.foldl odMoveToEnd s) := by
  induction ds with
  | nil => intro q s; simp [processDeps]
  | cons d ds ih =>
      intro q s
      show processDeps ds (q ++ [d]) (odMoveToEnd s d) = _
      rw [ih]
      simp

lemma buildQueueAux_nil (deps : α → List α) (fuel : Nat) (s : List α) :
    buildQueueAux deps fuel [] s = some s.reverse := by
  cases fuel <;> rfl

lemma buildQueueAux_zero (deps : α → List α) (m : α) (rest s : List α) :
    buildQueueAux deps 0 (m :: rest) s = none := rfl

lemma buildQueueAux_cons (deps : α → List α) (fuel : Nat) (m : α) (rest s : List α) :
    buildQueueAux deps (fuel + 1) (m :: rest) s =
      buildQueueAux deps fuel (rest ++ deps m) ((deps m).foldl odMoveToEnd s) := by
  rw [buildQueueAux, processDeps_eq]

lemma mem_odUpdate (s : List α) (m x : α) : x ∈ odUpdate s m ↔ x ∈ s ∨ x = m := by
  unfold odUpdate
  split
  · rename_i h
    constructor
    · exact fun hx => Or.inl hx
    · rintro (hx | rfl)
      · exact hx
      · exact h
  · simp

lemma mem_odMoveToEnd (s : List α) (m x : α) :
    x ∈ odMoveToEnd s m ↔ x ∈ s ∨ x = m := by
  unfold odMoveToEnd
  split
  · rename_i h
    simp only [List.mem_append, List.mem_singleton]
    by_cases hxm : x = m
    · simp [hxm, h]
    · simp [hxm, List.mem_erase_of_ne hxm]
  · simp

lemma mem_foldl_odMoveToEnd (ds : List α) : ∀ (s : List α) (x : α),
    x ∈ ds.foldl odMoveToEnd s ↔ x ∈ s ∨ x ∈ ds := by
  induction ds with
  | nil => simp
  | cons d ds ih =>
      intro s x
      rw [List.foldl_cons, ih, mem_odMoveToEnd, List.mem_cons]
      tauto

lemma mem_foldl_odUpdate (roots : List α) : ∀ (acc : List α) (x : α),
    x ∈ roots.foldl odUpdate acc ↔ x ∈ acc ∨ x ∈ roots := by
  induction roots with
  | nil => simp
  | cons r roots ih =>
      intro acc x
      rw [List.foldl_cons, ih, mem_odUpdate, List.mem_cons]
      tauto

lemma mem_seedSorted (roots : List α) (x : α) :
    x ∈ seedSorted roots ↔ x ∈ roots := by
  unfold seedSorted
  rw [mem_foldl_odUpdate]
  simp

/-! ### Duplicate-freedom lemmas -/

lemma nodup_odUpdate {s : List α} (h : s.Nodup) (m : α) : (odUpdate s m).Nodup := by
  unfold odUpdate
  split
  · exact h
  · rename_i hm
    simp only [List.nodup_append, List.nodup_singleton, List.disjoint_singleton]
    exact ⟨h, trivial, hm⟩

lemma nodup_odMoveToEnd {s : List α} (h : s.Nodup) (m : α) :
    (odMoveToEnd s m).Nodup := by
  unfold odMoveToEnd
  split
  · simp only [List.nodup_append, List.nodup_singleton, List.disjoint_singleton]
    exact ⟨h.erase m, trivial, h.not_mem_erase⟩
  · rename_i hm
    simp only [List.nodup_append, List.nodup_singleton, List.disjoint_singleton]
    exact ⟨h, trivial, hm⟩

lemma nodup_foldl_odMoveToEnd (ds : List α) : ∀ {s : List α}, s.Nodup →
    (ds.foldl odMoveToEnd s).Nodup := by
  induction ds with
  | nil => intro s h; exact h
  | cons d ds ih => intro s h; exact ih (nodup_odMoveToEnd h d)

lemma nodup_seedSorted (roots : List α) : (seedSorted roots).Nodup := by
  unfold seedSorted
  have haux : ∀ (rs acc : List α), acc.Nodup → (rs.foldl odUpdate acc).Nodup := by
    intro rs
    induction rs with
    | nil => intro acc h; exact h
    | cons r rs ih => intro acc h; exact ih _ (nodup_odUpdate h r)
  exact haux roots [] List.nodup_nil

/-! ### `listBefore` lemmas -/

lemma listBefore_cons (x : α) (xs : List α) (a b : α) :
    listBefore (x :: xs) a b = true ↔ (x = a ∧ b ∈ xs) ∨ listBefore xs a b = true := by
  simp [listBefore]

lemma listBefore_mem_left : ∀ {l : List α} {a b : α},
    listBefore l a b = true → a ∈ l := by
  intro l
  induction l with
  | nil => intro a b h; cases h
  | cons x xs ih =>
      intro a b h
      rcases (listBefore_cons x xs a b).1 h with ⟨rfl, _⟩ | h'
      · exact List.mem_cons_self x xs
      · exact List.mem_cons_of_mem x (ih h')

lemma listBefore_mem_right : ∀ {l : List α} {a b : α},
    listBefore l a b = true → b ∈ l := by
  intro l
  induction l with
  | nil => intro a b h; cases h
  | cons x xs ih =>
      intro a b h
      rcases (listBefore_cons x xs a b).1 h with ⟨_, hb⟩ | h'
      · exact List.mem_cons_of_mem x hb
      · exact List.mem_cons_of_mem x (ih h')

lemma listBefore_append_left {l₁ : List α} {a b : α}
    (h : listBefore l₁ a b = true) (l₂ : List α) :
    listBefore (l₁ ++ l₂) a b = true := by
  induction l₁ with
  | nil => cases h
  | cons x xs ih =>
      rcases (listBefore_cons x xs a b).1 h with ⟨hxa, hb⟩ | h'
      · exact (listBefore_cons x (xs ++ l₂) a b).2
          (Or.inl ⟨hxa, List.mem_append_left l₂ hb⟩)
      · exact (listBefore_cons x (xs ++ l₂) a b).2 (Or.inr (ih h'))

lemma listBefore_append_of_mem {l₁ l₂ : List α} {a b : α}
    (ha : a ∈ l₁) (hb : b ∈ l₂) : listBefore (l₁ ++ l₂) a b = true := by
  induction l₁ with
  | nil => cases ha
  | cons x xs ih =>
      rcases List.mem_cons.1 ha with hax | ha'
      · exact (listBefore_cons x (xs ++ l₂) a b).2
          (Or.inl ⟨hax.symm, List.mem_append_right xs hb⟩)
      · exact (listBefore_cons x (xs ++ l₂) a b).2 (Or.inr (ih ha'))

lemma listBefore_erase {l : List α} {a b d : α} (had : a ≠ d) (hbd : b ≠ d)
    (h : listBefore l a b = true) : listBefore (l.erase d) a b = true := by
  induction l with
  | nil => cases h
  | cons x xs ih =>
      by_cases hxd : x = d
      · subst hxd
        rw [List.erase_cons_head]
        rcases (listBefore_cons x xs a b).1 h with ⟨hxa, _⟩ | h'
        · exact absurd hxa.symm had
        · exact h'
      · rw [List.erase_cons_tail (by simp [hxd])]
        rcases (listBefore_cons x xs a b).1 h with ⟨hxa, hb⟩ | h'
        · exact (listBefore_cons x (xs.erase d) a b).2
            (Or.inl ⟨hxa, (List.mem_erase_of_ne hbd).2 hb⟩)
        · exact (listBefore_cons x (xs.erase d) a b).2 (Or.inr (ih h'))

lemma listBefore_reverse {l : List α} {a b : α} (hnd : l.Nodup)
    (h : listBefore l a b = true) : listBefore l.reverse b a = true := by
  induction l with
  | nil => cases h
  | cons x xs ih =>
      rw [List.reverse_cons]
      rcases (listBefore_cons x xs a b).1 h with ⟨hxa, hb⟩ | h'
      · subst hxa
        exact listBefore_append_of_mem (List.mem_reverse.2 hb)
          (List.mem_singleton_self x)
      · exact listBefore_append_left (ih (List.Nodup.of_cons hnd) h') [x]

lemma listBefore_trans : ∀ {l : List α} {a b c : α}, l.Nodup →
    listBefore l a b = true → listBefore l b c = true →
    listBefore l a c = true := by
  intro l
  induction l with
  | nil => intro a b c _ h; cases h
  | cons x xs ih =>
      intro a b c hnd h1 h2
      have hx : x ∉ xs := (List.nodup_cons.1 hnd).1
      rcases (listBefore_cons x xs a b).1 h1 with ⟨hxa, hb⟩ | h1'
      · rcases (listBefore_cons x xs b c).1 h2 with ⟨hxb, _⟩ | h2'
        · exact absurd (hxb ▸ hb) hx
        · exact (listBefore_cons x xs a c).2
            (Or.inl ⟨hxa, listBefore_mem_right h2'⟩)
      · rcases (listBefore_cons x xs b c).1 h2 with ⟨hxb, _⟩ | h2'
        · exact absurd (hxb ▸ listBefore_mem_right h1') hx
        · exact (listBefore_cons x xs a c).2
            (Or.inr (ih (List.nodup_cons.1 hnd).2 h1' h2'))

/-! ### Order-preservation through the move-to-end fold -/

lemma listBefore_odMoveToEnd {s : List α} {a b d : α} (had : a ≠ d)
    (hbd : b ≠ d) (h : listBefore s a b = true) :
    listBefore (odMoveToEnd s d) a b = true := by
  unfold odMoveToEnd
  split
  · exact listBefore_append_left (listBefore_erase had hbd h) [d]
  · exact listBefore_append_left h [d]

lemma listBefore_odMoveToEnd_self {s : List α} {a d : α} (has : a ∈ s)
    (had : a ≠ d) : listBefore (odMoveToEnd s d) a d = true := by
  unfold odMoveToEnd
  split
  · exact listBefore_append_of_mem ((List.mem_erase_of_ne had).2 has)
      (List.mem_singleton_self d)
  · exact listBefore_append_of_mem has (List.mem_singleton_self d)

lemma listBefore_foldl {ds : List α} : ∀ {s : List α} {a b : α}, a ∉ ds →
    b ∉ ds → listBefore s a b = true →
    listBefore (ds.foldl odMoveToEnd s) a b = true := by
  induction ds with
  | nil => intro s a b _ _ h; exact h
  | cons d ds ih =>
      intro s a b ha hb h
      have had : a ≠ d := fun he => ha (he ▸ List.mem_cons_self d ds)
      have hbd : b ≠ d := fun he => hb (he ▸ List.mem_cons_self d ds)
      exact ih (fun he => ha (List.mem_cons_of_mem d he))
        (fun he => hb (List.mem_cons_of_mem d he))
        (listBefore_odMoveToEnd had hbd h)

lemma listBefore_foldl_of_mem {ds : List α} : ∀ {s : List α} {a b : α},
    a ∈ s → a ∉ ds → b ∈ ds →
    listBefore (ds.foldl odMoveToEnd s) a b = true := by
  induction ds with
  | nil => intro s a b _ _ hb; cases hb
  | cons d ds ih =>
      intro s a b has hads hbds
      have had : a ≠ d := fun he => hads (he ▸ List.mem_cons_self d ds)
      have hads' : a ∉ ds := fun he => hads (List.mem_cons_of_mem d he)
      by_cases hb : b ∈ ds
      · exact ih ((mem_odMoveToEnd s d a).2 (Or.inl has)) hads' hb
      · have hbd : b = d := by
          rcases List.mem_cons.1 hbds with h | h
          · exact h
          · exact absurd h hb
        subst hbd
        show listBefore (ds.foldl odMoveToEnd (odMoveToEnd s b)) a b = true
        exact listBefore_foldl hads' hb (listBefore_odMoveToEnd_self has had)

/-! ### The main loop invariant -/

lemma ginv_seed (deps : α → List α) (roots : List α) :
    Ginv deps roots (seedSorted roots) :=
  ⟨nodup_seedSorted roots, fun x hx => (mem_seedSorted roots x).2 hx,
   fun n hn _ _ => Or.inl ((mem_seedSorted roots n).1 hn)⟩

lemma ginv_step (deps : α → List α) {m : α} {rest s : List α}
    (h : Ginv deps (m :: rest) s) :
    Ginv deps (rest ++ deps m) ((deps m).foldl odMoveToEnd s) := by
  obtain ⟨hnd, hQs, hinv⟩ := h
  refine ⟨nodup_foldl_odMoveToEnd (deps m) hnd, ?_, ?_⟩
  · intro x hx
    rcases List.mem_append.1 hx with hx' | hx'
    · exact (mem_foldl_odMoveToEnd (deps m) s x).2
        (Or.inl (hQs x (List.mem_cons_of_mem m hx')))
    · exact (mem_foldl_odMoveToEnd (deps m) s x).2 (Or.inr hx')
  · intro n hn d hd
    by_cases hnds : n ∈ deps m
    · exact Or.inl (List.mem_append_right rest hnds)
    · have hns : n ∈ s := by
        rcases (mem_foldl_odMoveToEnd (deps m) s n).1 hn with h' | h'
        · exact h'
        · exact absurd h' hnds
      by_cases hnm : n = m
      · subst hnm
        refine Or.inr ⟨(mem_foldl_odMoveToEnd (deps n) s d).2 (Or.inr hd), ?_⟩
        exact listBefore_foldl_of_mem (hQs n (List.mem_cons_self n rest)) hnds hd
      · rcases hinv n hns d hd with hQ | ⟨hds, hbef⟩
        · refine Or.inl (List.mem_append_left (deps m) ?_)
          rcases List.mem_cons.1 hQ with h' | h'
          · exact absurd h' hnm
          · exact h'
        · refine Or.inr ?_
          by_cases hdds : d ∈ deps m
          · exact ⟨(mem_foldl_odMoveToEnd (deps m) s d).2 (Or.inr hdds),
              listBefore_foldl_of_mem hns hnds hdds⟩
          · exact ⟨(mem_foldl_odMoveToEnd (deps m) s d).2 (Or.inl hds),
              listBefore_foldl hnds hdds hbef⟩

lemma ginv_final {deps : α → List α} {s : List α} (hg : Ginv deps [] s) :
    s.reverse.Nodup ∧ ∀ n ∈ s.reverse, ∀ d ∈ deps n,
      d ∈ s.reverse ∧ listBefore s.reverse d n = true := by
  obtain ⟨hnd, _, hinv⟩ := hg
  refine ⟨List.nodup_reverse.2 hnd, ?_⟩
  intro n hn d hd
  rcases hinv n (List.mem_reverse.1 hn) d hd with h' | ⟨hds, hbef⟩
  · cases h'
  · exact ⟨List.mem_reverse.2 hds, listBefore_reverse hnd hbef⟩

lemma ginv_run (deps : α → List α) : ∀ (fuel : Nat) (Q s out : List α),
    buildQueueAux deps fuel Q s = some out → Ginv deps Q s →
    out.Nodup ∧ ∀ n ∈ out, ∀ d ∈ deps n,
      d ∈ out ∧ listBefore out d n = true := by
  intro fuel
  induction fuel with
  | zero =>
      intro Q s out hrun hg
      cases Q with
      | nil =>
          rw [buildQueueAux_nil] at hrun
          cases hrun
          exact ginv_final hg
      | cons m rest => cases hrun
  | succ fuel ih =>
      intro Q s out hrun hg
      cases Q with
      | nil =>
          rw [buildQueueAux_nil] at hrun
          cases hrun
          exact ginv_final hg
      | cons m rest =>
          rw [buildQueueAux_cons] at hrun
          exact ih _ _ _ hrun (ginv_step deps hg)

/-- The two key structural facts about any terminating run of
`_build_queue`: the output is duplicate-free, and every direct dependency
of a member sits strictly before it. -/
lemma buildQueue_topo {deps : α → List α} {fuel : Nat} {roots out : List α}
    (h : buildQueue deps fuel roots = some out) :
    out.Nodup ∧ ∀ n ∈ out, ∀ d ∈ deps n,
      d ∈ out ∧ listBefore out d n = true :=
  ginv_run deps fuel roots (seedSorted roots) out h (ginv_seed deps roots)

/-! ### Reachability: the output is exactly the set of reachable nodes -/

lemma run_mem_of_mem_sorted (deps : α → List α) : ∀ (fuel : Nat)
    (Q s out : List α), buildQueueAux deps fuel Q s = some out →
    ∀ x ∈ s, x ∈ out := by
  intro fuel
  induction fuel with
  | zero =>
      intro Q s out hrun x hx
      cases Q with
      | nil =>
          rw [buildQueueAux_nil] at hrun
          cases hrun
          exact List.mem_reverse.2 hx
      | cons m rest => cases hrun
  | succ fuel ih =>
      intro Q s out hrun x hx
      cases Q with
      | nil =>
          rw [buildQueueAux_nil] at hrun
          cases hrun
          exact List.mem_reverse.2 hx
      | cons m rest =>
          rw [buildQueueAux_cons] at hrun
          exact ih _ _ _ hrun x ((mem_foldl_odMoveToEnd (deps m) s x).2 (Or.inl hx))

lemma run_sound (deps : α → List α) (S : α → Prop)
    (hclosed : ∀ x, S x → ∀ d ∈ deps x, S d) : ∀ (fuel : Nat)
    (Q s out : List α), buildQueueAux deps fuel Q s = some out →
    (∀ q ∈ Q, S q) → (∀ x ∈ s, S x) → ∀ x ∈ out, S x := by
  intro fuel
  induction fuel with
  | zero =>
      intro Q s out hrun hQ hs x hx
      cases Q with
      | nil =>
          rw [buildQueueAux_nil] at hrun
          cases hrun
          exact hs x (List.mem_reverse.1 hx)
      | cons m rest => cases hrun
  | succ fuel ih =>
      intro Q s out hrun hQ hs x hx
      cases Q with
      | nil =>
          rw [buildQueueAux_nil] at hrun
          cases hrun
          exact hs x (List.mem_reverse.1 hx)
      | cons m rest =>
          rw [buildQueueAux_cons] at hrun
          refine ih _ _ _ hrun ?_ ?_ x hx
          · intro q hq
            rcases List.mem_append.1 hq with h' | h'
            · exact hQ q (List.mem_cons_of_mem m h')
            · exact hclosed m (hQ m (List.mem_cons_self m rest)) q h'
          · intro y hy
            rcases (mem_foldl_odMoveToEnd (deps m) s y).1 hy with h' | h'
            · exact hs y h'
            · exact hclosed m (hQ m (List.mem_cons_self m rest)) y h'

lemma run_complete (deps : α → List α) : ∀ (fuel : Nat) (Q s out : List α),
    buildQueueAux deps fuel Q s = some out → (∀ y ∈ Q, y ∈ s) →
    ∀ q ∈ Q, ∀ x, Reaches deps q x → x ∈ out := by
  intro fuel
  induction fuel with
  | zero =>
      intro Q s out hrun hQs q hq x hreach
      cases Q with
      | nil => cases hq
      | cons m rest => cases hrun
  | succ fuel ih =>
      intro Q s out hrun hQs q hq x hreach
      cases Q with
      | nil => cases hq
      | cons m rest =>
          rw [buildQueueAux_cons] at hrun
          have hQs' : ∀ y ∈ rest ++ deps m, y ∈ (deps m).foldl odMoveToEnd s := by
            intro y hy
            rcases List.mem_append.1 hy with h' | h'
            · exact (mem_foldl_odMoveToEnd (deps m) s y).2
                (Or.inl (hQs y (List.mem_cons_of_mem m h')))
            · exact (mem_foldl_odMoveToEnd (deps m) s y).2 (Or.inr h')
          rcases List.mem_cons.1 hq with hqm | hq'
          · subst hqm
            rcases Relation.ReflTransGen.cases_head hreach with hqx | ⟨c, hc, hcx⟩
            · subst hqx
              exact run_mem_of_mem_sorted deps _ _ _ _ hrun q
                ((mem_foldl_odMoveToEnd (deps q) s q).2
                  (Or.inl (hQs q (List.mem_cons_self q rest))))
            · exact ih _ _ _ hrun hQs' c (List.mem_append_right rest hc) x hcx
          · exact ih _ _ _ hrun hQs' q (List.mem_append_left (deps m) hq') x hreach

/-! ### Termination measure for graphs with a rank function -/

lemma pathCount_pos (deps : α → List α) (fuel : Nat) (n : α) :
    1 ≤ pathCount deps fuel n := by
  cases fuel with
  | zero => exact Nat.le_refl 1
  | succ fuel => exact Nat.le_add_right 1 _

lemma pathCount_stable (deps : α → List α) (rank : α → Nat)
    (hacyc : ∀ n, ∀ d ∈ deps n, rank d < rank n) :
    ∀ (k : Nat) (n : α), rank n < k → ∀ f g, rank n < f → rank n < g →
    pathCount deps f n = pathCount deps g n := by
  intro k
  induction k with
  | zero => intro n hn; cases hn
  | succ k ih =>
      intro n hn f g hf hg
      match f, g with
      | f' + 1, g' + 1 =>
          show 1 + ((deps n).map (pathCount deps f')).sum =
            1 + ((deps n).map (pathCount deps g')).sum
          have hmap : (deps n).map (pathCount deps f') =
              (deps n).map (pathCount deps g') := by
            apply List.map_congr_left
            intro d hd
            have hdk : rank d < k := Nat.lt_of_lt_of_le (hacyc n d hd)
              (Nat.lt_succ_iff.1 hn)
            have hdf : rank d < f' := Nat.lt_of_lt_of_le (hacyc n d hd)
              (Nat.lt_succ_iff.1 hf)
            have hdg : rank d < g' := Nat.lt_of_lt_of_le (hacyc n d hd)
              (Nat.lt_succ_iff.1 hg)
            exact ih d hdk f' g' hdf hdg
          rw [hmap]

lemma pathCount_unfold (deps : α → List α) (rank : α → Nat)
    (hacyc : ∀ n, ∀ d ∈ deps n, rank d < rank n) (n : α) :
    pathCount deps (rank n + 1) n =
      1 + ((deps n).map (fun d => pathCount deps (rank d + 1) d)).sum := by
  show 1 + ((deps n).map (pathCount deps (rank n))).sum = _
  have hmap : (deps n).map (pathCount deps (rank n)) =
      (deps n).map (fun d => pathCount deps (rank d + 1) d) := by
    apply List.map_congr_left
    intro d hd
    exact pathCount_stable deps rank hacyc (rank n) d (hacyc n d hd)
      (rank n) (rank d + 1) (hacyc n d hd) (Nat.lt_succ_self _)
  rw [hmap]

lemma run_drain (deps : α → List α) (rank : α → Nat)
    (hacyc : ∀ n, ∀ d ∈ deps n, rank d < rank n) : ∀ (fuel : Nat)
    (Q s : List α),
    (Q.map (fun n => pathCount deps (rank n + 1) n)).sum ≤ fuel →
    ∃ out, buildQueueAux deps fuel Q s = some out := by
  intro fuel
  induction fuel with
  | zero =>
      intro Q s hW
      cases Q with
      | nil => exact ⟨s.reverse, buildQueueAux_nil deps 0 s⟩
      | cons m rest =>
          exfalso
          have h1 : 1 ≤ pathCount deps (rank m + 1) m := pathCount_pos deps _ m
          simp only [List.map_cons, List.sum_cons, Nat.le_zero] at hW
          omega
  | succ fuel ih =>
      intro Q s hW
      cases Q with
      | nil => exact ⟨s.reverse, buildQueueAux_nil deps _ s⟩
      | cons m rest =>
          rw [buildQueueAux_cons]
          apply ih
          have hm : pathCount deps (rank m + 1) m =
              1 + ((deps m).map (fun d => pathCount deps (rank d + 1) d)).sum :=
            pathCount_unfold deps rank hacyc m
          simp only [List.map_cons, List.sum_cons] at hW
          simp only [List.map_append, List.sum_append]
          omega

/-! ### Fuel monotonicity -/

lemma run_mono (deps : α → List α) : ∀ (fuel : Nat) (Q s out : List α),
    buildQueueAux deps fuel Q s = some out →
    buildQueueAux deps (fuel + 1) Q s = some out := by
  intro fuel
  induction fuel with
  | zero =>
      intro Q s out h
      cases Q with
      | nil => rw [buildQueueAux_nil] at h ⊢; exact h
      | cons m rest => cases h
  | succ fuel ih =>
      intro Q s out h
      cases Q with
      | nil => rw [buildQueueAux_nil] at h ⊢; exact h
      | cons m rest =>
          rw [buildQueueAux_cons] at h ⊢
          exact ih _ _ _ h

lemma run_mono_le (deps : α → List α) {fuel fuel' : Nat} (h : fuel ≤ fuel')
    {Q s out : List α} (hrun : buildQueueAux deps fuel Q s = some out) :
    buildQueueAux deps fuel' Q s = some out := by
  obtain ⟨k, rfl⟩ := Nat.exists_eq_add_of_le h
  clear h
  induction k with
  | zero => exact hrun
  | succ k ih => exact run_mono deps _ _ _ _ ih

/-! ### Equivalence with the specification's reference algorithm -/

lemma odMoveToEnd_eq_erase_append (s : List α) (d : α) :
    odMoveToEnd s d = s.erase d ++ [d] := by
  unfold odMoveToEnd
  split
  · rfl
  · rename_i h
    rw [List.erase_of_not_mem h]

lemma odMoveToEnd_funext :
    (odMoveToEnd : List α → α → List α) = fun t d => t.erase d ++ [d] :=
  funext fun t => funext fun d => odMoveToEnd_eq_erase_append t d

lemma specRefAux_cons (deps : α → List α) (fuel : Nat) (m : α)
    (rest s : List α) :
    specRefAux deps (fuel + 1) (m :: rest) s =
      specRefAux deps fuel (rest ++ deps m)
        ((deps m).foldl (fun t d => t.erase d ++ [d]) s) := rfl

lemma specRefAux_eq (deps : α → List α) : ∀ (fuel : Nat) (Q s : List α),
    buildQueueAux deps fuel Q s = specRefAux deps fuel Q s := by
  intro fuel
  induction fuel with
  | zero =>
      intro Q s
      cases Q with
      | nil => rfl
      | cons m rest => rfl
  | succ fuel ih =>
      intro Q s
      cases Q with
      | nil => rfl
      | cons m rest =>
          rw [buildQueueAux_cons, specRefAux_cons, odMoveToEnd_funext]
          exact ih _ _

/-! ### The fallible-accessor run -/

lemma buildQueueAuxE_nil {ε : Type} (depsE : α → Except ε (List α))
    (fuel : Nat) (s : List α) :
    buildQueueAuxE depsE fuel [] s = some (Except.ok s.reverse) := by
  cases fuel <;> rfl

lemma buildQueueAuxE_cons_ok {ε : Type} {depsE : α → Except ε (List α)}
    {m : α} {ds : List α} (h : depsE m = Except.ok ds) (fuel : Nat)
    (rest s : List α) :
    buildQueueAuxE depsE (fuel + 1) (m :: rest) s =
      buildQueueAuxE depsE fuel (rest ++ ds) (ds.foldl odMoveToEnd s) := by
  simp only [buildQueueAuxE, h, processDeps_eq]

lemma buildQueueAuxE_cons_err {ε : Type} {depsE : α → Except ε (List α)}
    {m : α} {e : ε} (h : depsE m = Except.error e) (fuel : Nat)
    (rest s : List α) :
    buildQueueAuxE depsE (fuel + 1) (m :: rest) s = some (Except.error e) := by
  simp only [buildQueueAuxE, h]

lemma buildQueueAuxE_agree {ε : Type} (depsE : α → Except ε (List α))
    (deps : α → List α) (hok : ∀ n, depsE n = Except.ok (deps n)) :
    ∀ (fuel : Nat) (Q s : List α),
    buildQueueAuxE depsE fuel Q s = (buildQueueAux deps fuel Q s).map Except.ok := by
  intro fuel
  induction fuel with
  | zero =>
      intro Q s
      cases Q with
      | nil => rw [buildQueueAuxE_nil, buildQueueAux_nil]; rfl
      | cons m rest => rfl
  | succ fuel ih =>
      intro Q s
      cases Q with
      | nil => rw [buildQueueAuxE_nil, buildQueueAux_nil]; rfl
      | cons m rest =>
          rw [buildQueueAuxE_cons_ok (hok m), buildQueueAux_cons]
          exact ih _ _

lemma buildQueueAuxE_error {ε : Type} (depsE : α → Except ε (List α)) :
    ∀ (fuel : Nat) (Q s : List α) (e : ε),
    buildQueueAuxE depsE fuel Q s = some (Except.error e) →
    ∃ n, depsE n = Except.error e := by
  intro fuel
  induction fuel with
  | zero =>
      intro Q s e h
      cases Q with
      | nil => rw [buildQueueAuxE_nil] at h; cases h
      | cons m rest => cases h
  | succ fuel ih =>
      intro Q s e h
      cases Q with
      | nil => rw [buildQueueAuxE_nil] at h; cases h
      | cons m rest =>
          cases hdm : depsE m with
          | error e' =>
              rw [buildQueueAuxE_cons_err hdm] at h
              have he : e' = e := by
                injection h with h1
                injection h1
              exact ⟨m, he ▸ hdm⟩
          | ok ds =>
              rw [buildQueueAuxE_cons_ok hdm] at h
              exact ih _ _ _ h

/-! ### Transitive lifting of the topological-order property -/

lemma buildQueue_topo_trans {deps : α → List α} {fuel : Nat}
    {roots out : List α} (h : buildQueue deps fuel roots = some out) :
    ∀ n ∈ out, ∀ d : α, DependsTrans deps d n →
      d ∈ out ∧ listBefore out d n = true := by
  obtain ⟨hnd, hdir⟩ := buildQueue_topo h
  intro n hn d hdep
  unfold DependsTrans at hdep
  revert hn
  induction hdep with
  | single hstep =>
      intro hn
      exact hdir _ hn _ hstep
  | tail hdb hbn ih =>
      intro hn
      obtain ⟨hb, hbefbn⟩ := hdir _ hn _ hbn
      obtain ⟨hd, hbefdb⟩ := ih hb
      exact ⟨hd, listBefore_trans hnd hbefdb hbefbn⟩

/-! ### Traversal traces -/

lemma foldl_append_singleton (l : List α) : ∀ acc : List α,
    l.foldl (fun tr m => tr ++ [m]) acc = acc ++ l := by
  induction l with
  | nil => simp
  | cons x xs ih =>
      intro acc
      rw [List.foldl_cons, ih]
      simp

lemma dfsTrace_eq (v : ModulesVisitor α) : v.dfsTrace = v.queue := by
  unfold ModulesVisitor.dfsTrace ModulesVisitor.dfs_visit
  rw [foldl_append_singleton]
  simp

lemma bfsTrace_eq (v : ModulesVisitor α) : v.bfsTrace = v.queue.reverse := by
  unfold ModulesVisitor.bfsTrace ModulesVisitor.bfs_visit
  rw [foldl_append_singleton]
  simp

/-! ### Claim theorems -/

/-- C1: for every finite acyclic dependency graph (acyclicity and
finiteness of paths witnessed by a rank function strictly decreasing along
dependency edges) and every non-empty root sequence, any ordering computed
by `_build_queue` is a topological order: every direct or transitive
dependency `d` of a node `n` of the ordering is itself in the ordering and
appears strictly before `n`. -/
theorem c1_topological_order (deps : α → List α) (rank : α → Nat)
    (hacyc : ∀ n, ∀ d ∈ deps n, rank d < rank n) (roots : List α)
    (hne : roots ≠ []) (fuel : Nat) (out : List α)
    (hrun : buildQueue deps fuel roots = some out) :
    ∀ n ∈ out, ∀ d : α, DependsTrans deps d n →
      d ∈ out ∧ listBefore out d n = true :=
  buildQueue_topo_trans hrun

/-- Witness for C1 on the two-node graph `1 ⟶ 0` with root `1`: the
computed ordering is `[0, 1]` and the topological-order property holds on
it. -/
theorem c1_witness :
    (∀ n : Fin 2, ∀ d ∈ depsW n, (d : Nat) < (n : Nat)) ∧
    ([(1 : Fin 2)] ≠ []) ∧
    buildQueue depsW 5 [1] = some [0, 1] ∧
    (∀ n ∈ [(0 : Fin 2), 1], ∀ d : Fin 2, DependsTrans depsW d n →
      d ∈ [(0 : Fin 2), 1] ∧ listBefore [(0 : Fin 2), 1] d n = true) :=
  ⟨by decide, by decide, by decide,
   c1_topological_order depsW (fun n => (n : Nat)) (by decide) [1]
     (by decide) 5 [0, 1] (by decide)⟩

/-- C2: for every finite acyclic dependency graph and every root sequence,
any ordering computed by `_build_queue` contains each node reachable from
the roots (including the roots) exactly once, and contains no other
nodes. -/
theorem c2_reachable_exactly_once (deps : α → List α) (rank : α → Nat)
    (hacyc : ∀ n, ∀ d ∈ deps n, rank d < rank n) (roots : List α)
    (fuel : Nat) (out : List α)
    (hrun : buildQueue deps fuel roots = some out) :
    (∀ x, (∃ r ∈ roots, Reaches deps r x) → out.count x = 1) ∧
    ∀ x ∈ out, ∃ r ∈ roots, Reaches deps r x := by
  have hnd : out.Nodup := (buildQueue_topo hrun).1
  constructor
  · rintro x ⟨r, hr, hreach⟩
    have hx : x ∈ out :=
      run_complete deps fuel roots (seedSorted roots) out hrun
        (fun y hy => (mem_seedSorted roots y).2 hy) r hr x hreach
    exact List.count_eq_one_of_mem hnd hx
  · intro x hx
    refine run_sound deps (fun y => ∃ r ∈ roots, Reaches deps r y) ?_
      fuel roots (seedSorted roots) out hrun ?_ ?_ x hx
    · rintro y ⟨r, hr, hry⟩ d hd
      exact ⟨r, hr, hry.tail hd⟩
    · exact fun q hq => ⟨q, hq, Relation.ReflTransGen.refl⟩
    · exact fun y hy => ⟨y, (mem_seedSorted roots y).1 hy,
        Relation.ReflTransGen.refl⟩

/-- Witness for C2 on the two-node graph `1 ⟶ 0` with root `1`. -/
theorem c2_witness :
    (∀ n : Fin 2, ∀ d ∈ depsW n, (d : Nat) < (n : Nat)) ∧
    buildQueue depsW 5 [1] = some [0, 1] ∧
    ((∀ x : Fin 2, (∃ r ∈ [(1 : Fin 2)], Reaches depsW r x) →
        ([(0 : Fin 2), 1].count x = 1)) ∧
      ∀ x ∈ [(0 : Fin 2), 1], ∃ r ∈ [(1 : Fin 2)], Reaches depsW r x) :=
  ⟨by decide, by decide,
   c2_reachable_exactly_once depsW (fun n => (n : Nat)) (by decide) [1] 5
     [0, 1] (by decide)⟩

/-- C3, as stated, is false: for roots `[A, B]` with `A` and `B` both
depending on `[C]`, the computed ordering is not `[C, A, B]` — the final
reversal of `_sorted` also reverses the roots' relative order. -/
theorem c3_counterexample :
    buildQueue depsScen2 10 [Node3.A, Node3.B] ≠
      some [Node3.C, Node3.A, Node3.B] := by
  decide

/-- C3 (amended): for roots `[A, B]` with `A` depending on `[C]` and `B`
depending on `[C]`, the computed ordering contains `C` exactly once,
before both `A` and `B`, but the relative order of `A` and `B` is the
reverse of the root order: the ordering is exactly `[C, B, A]`. -/
theorem c3_amended_order (fuel : Nat) (hfuel : 4 ≤ fuel) :
    buildQueue depsScen2 fuel [Node3.A, Node3.B] =
      some [Node3.C, Node3.B, Node3.A] :=
  run_mono_le depsScen2 hfuel
    (by decide :
      buildQueueAux depsScen2 4 [Node3.A, Node3.B]
        (seedSorted [Node3.A, Node3.B]) =
        some [Node3.C, Node3.B, Node3.A])

/-- Witness for the amended C3 at fuel 10. -/
theorem c3_witness :
    4 ≤ 10 ∧
    buildQueue depsScen2 10 [Node3.A, Node3.B] =
      some [Node3.C, Node3.B, Node3.A] :=
  ⟨by decide, c3_amended_order 10 (by decide)⟩

/-- C4: for every dependency graph admitting a rank function strictly
decreasing along dependency edges (the finite-acyclic precondition), the
work-queue loop of `_build_queue` drains after finitely many dequeues:
some finite fuel suffices for the run to complete. -/
theorem c4_termination (deps : α → List α) (rank : α → Nat)
    (hacyc : ∀ n, ∀ d ∈ deps n, rank d < rank n) (roots : List α) :
    ∃ fuel out, buildQueue deps fuel roots = some out := by
  obtain ⟨out, hout⟩ := run_drain deps rank hacyc
    ((roots.map (fun n => pathCount deps (rank n + 1) n)).sum) roots
    (seedSorted roots) (Nat.le_refl _)
  exact ⟨_, out, hout⟩

/-- Witness for C4 on the two-node graph `1 ⟶ 0` with root `1`. -/
theorem c4_witness :
    (∀ n : Fin 2, ∀ d ∈ depsW n, (d : Nat) < (n : Nat)) ∧
    ∃ fuel out, buildQueue depsW fuel [1] = some out :=
  ⟨by decide, c4_termination depsW (fun n => (n : Nat)) (by decide) [1]⟩

/-- C5: for every constructed visitor, the sequence of nodes on which
`bfs_visit` invokes its action is the exact element-wise reverse of the
sequence on which `dfs_visit` invokes it, and for every action and every
initial state each traversal is exactly the successive invocation of the
action along its trace. -/
theorem c5_reverse_traversal (deps : α → List α) (fuel : Nat)
    (roots : List α) (v : ModulesVisitor α)
    (hv : ModulesVisitor.make deps fuel roots = some v) :
    v.bfsTrace = v.dfsTrace.reverse ∧
    ∀ (σ : Type) (action : α → σ → σ) (s : σ),
      v.dfs_visit action s = v.dfsTrace.foldl (fun st m => action m st) s ∧
      v.bfs_visit action s = v.bfsTrace.foldl (fun st m => action m st) s := by
  refine ⟨by rw [bfsTrace_eq, dfsTrace_eq], ?_⟩
  intro σ action s
  rw [dfsTrace_eq, bfsTrace_eq]
  exact ⟨rfl, rfl⟩

/-- Witness for C5 on the visitor built from the two-node graph `1 ⟶ 0`. -/
theorem c5_witness :
    ModulesVisitor.make depsW 5 [1] = some (ModulesVisitor.mk [0, 1]) ∧
    ((ModulesVisitor.mk [(0 : Fin 2), 1]).bfsTrace =
        (ModulesVisitor.mk [(0 : Fin 2), 1]).dfsTrace.reverse ∧
      ∀ (σ : Type) (action : Fin 2 → σ → σ) (s : σ),
        (ModulesVisitor.mk [(0 : Fin 2), 1]).dfs_visit action s =
          (ModulesVisitor.mk [(0 : Fin 2), 1]).dfsTrace.foldl
            (fun st m => action m st) s ∧
        (ModulesVisitor.mk [(0 : Fin 2), 1]).bfs_visit action s =
          (ModulesVisitor.mk [(0 : Fin 2), 1]).bfsTrace.foldl
            (fun st m => action m st) s) :=
  ⟨rfl, c5_reverse_traversal depsW 5 [1] (ModulesVisitor.mk [0, 1]) rfl⟩

/-- C6: for root `[A]` with `A` depending on `[B, C]` and `C` depending on
`[B]`, the computed ordering is exactly `[B, C, A]`: `B` precedes `C`
because `C` depends on `B`, even though `A` lists `B` before `C`. -/
theorem c6_scenario3_order (fuel : Nat) (hfuel : 4 ≤ fuel) :
    buildQueue depsScen3 fuel [Node3.A] =
      some [Node3.B, Node3.C, Node3.A] :=
  run_mono_le depsScen3 hfuel
    (by decide :
      buildQueueAux depsScen3 4 [Node3.A] (seedSorted [Node3.A]) =
        some [Node3.B, Node3.C, Node3.A])

/-- Witness for C6 at fuel 10. -/
theorem c6_witness :
    4 ≤ 10 ∧
    buildQueue depsScen3 10 [Node3.A] = some [Node3.B, Node3.C, Node3.A] :=
  ⟨by decide, c6_scenario3_order 10 (by decide)⟩

/-- C7: the ordering produced by `_build_queue` coincides, for every input
and every fuel (in particular for every terminating input), with the
specification's reference algorithm: seed a FIFO queue and an
insertion-ordered set with the roots; repeatedly dequeue `m` and, for each
direct dependency `d` in declared order, unconditionally enqueue `d` and
move `d` to the tail of the ordered set (removing any prior entry first);
finally reverse the ordered set's sequence. -/
theorem c7_matches_reference (deps : α → List α) (fuel : Nat)
    (roots : List α) :
    buildQueue deps fuel roots = specRefBuild deps fuel roots :=
  specRefAux_eq deps fuel roots (seedSorted roots)

/-- C8: constructing a visitor from an empty root collection succeeds (no
error even with a fallible accessor, which is never consulted) and yields
an empty ordering, so both traversals invoke the action zero times. -/
theorem c8_empty_roots (deps : α → List α) (fuel : Nat) :
    ModulesVisitor.make deps fuel [] = some (ModulesVisitor.mk []) ∧
    (∀ (ε : Type) (depsE : α → Except ε (List α)),
      buildQueueE depsE fuel [] = some (Except.ok [])) ∧
    (ModulesVisitor.mk ([] : List α)).dfsTrace = [] ∧
    (ModulesVisitor.mk ([] : List α)).bfsTrace = [] := by
  refine ⟨?_, ?_, rfl, rfl⟩
  · show ((buildQueueAux deps fuel [] []).map ModulesVisitor.mk) = _
    rw [buildQueueAux_nil]
    rfl
  · intro ε depsE
    show buildQueueAuxE depsE fuel [] [] = _
    rw [buildQueueAuxE_nil]
    rfl

/-- C9: `_build_queue` raises no error of its own: with an accessor that
never raises it agrees with the pure run, and any error outcome is exactly
a value the accessor raised on some node, propagated unmodified. -/
theorem c9_error_propagation {ε : Type} (depsE : α → Except ε (List α))
    (deps : α → List α) (fuel : Nat) (roots : List α) :
    ((∀ n, depsE n = Except.ok (deps n)) →
      buildQueueE depsE fuel roots =
        (buildQueue deps fuel roots).map Except.ok) ∧
    ∀ e, buildQueueE depsE fuel roots = some (Except.error e) →
      ∃ n, depsE n = Except.error e :=
  ⟨fun hok => buildQueueAuxE_agree depsE deps hok fuel roots (seedSorted roots),
   fun e he => buildQueueAuxE_error depsE fuel roots (seedSorted roots) e he⟩

/-- Witness for C9: on the graph whose accessor raises `7` at node `1`,
construction from root `1` reports exactly that error, and the error is
one the accessor raised. -/
theorem c9_witness :
    buildQueueE depsWE 5 [1] = some (Except.error 7) ∧
    ∃ n, depsWE n = Except.error 7 :=
  ⟨rfl, (c9_error_propagation depsWE (fun _ => []) 5 [1]).2 7 rfl⟩

/-- C10: for every input — including duplicated roots and duplicated
dependency entries — any computed ordering is duplicate-free. -/
theorem c10_no_duplicates (deps : α → List α) (fuel : Nat)
    (roots out : List α) (hrun : buildQueue deps fuel roots = some out) :
    out.Nodup :=
  (buildQueue_topo hrun).1

/-- Witness for C10 on duplicated roots `[0, 0]` and duplicated dependency
list `deps 0 = [1, 1]`: the computed ordering `[1, 0]` is
duplicate-free. -/
theorem c10_witness :
    buildQueue depsDup 10 [0, 0] = some [1, 0] ∧
    ([(1 : Fin 2), 0] : List (Fin 2)).Nodup :=
  ⟨by decide, c10_no_duplicates depsDup 10 [0, 0] [1, 0] (by decide)⟩

end SMV
